import Mathlib

/-!
Verification of the integer-sequence diff engine and text-diff layer of the
Merovius/diff Go package (hash_go1.14.go), shallowly embedded in Lean.

Conventions of the embedding:
* Go slices of uint64 become List Nat (only equality and ordering of values
  is used, never arithmetic, so no modular reduction is needed).
* Go int indices that can be negative (the candidate sentinel fields) become Int.
* Go loops become fuel-indexed structural recursions; the fuel is always
  instantiated with a provably sufficient bound at the call site, so that the
  definitions evaluate by kernel reduction.
* Any Go statement that can panic (out-of-range index, nil dereference) is
  modelled by an Option/Except result, none/error meaning a panic.
-/

namespace DiffM

/-- Go: type Op int, with OpA, OpEq, OpB = -1, 0, 1. The Go code multiplies
ops by a sign, so the embedding keeps the integer representation. -/
abbrev Op := Int

/-- Go constant OpA = -1 (delete from a / left). -/
def OpA : Op := -1

/-- Go constant OpEq = 0 (element common to both sides). -/
def OpEq : Op := 0

/-- Go constant OpB = 1 (insert from b / right). -/
def OpB : Op := 1

/-- Go: type element struct { i int; v uint64; last bool } -/
structure element where
  i : Nat
  v : Nat
  last : Bool
deriving Repr, DecidableEq

/-- Go: type candidate struct { i, j int; prev *candidate }. A nil prev
pointer is modelled by none; the fields i, j can hold the -1 sentinel. -/
inductive candidate where
  | mk (i j : Int) (prev : Option candidate)
deriving Repr

/-- Field access candidate.i. -/
def candidate.i : candidate → Int
  | .mk i _ _ => i

/-- Field access candidate.j. -/
def candidate.j : candidate → Int
  | .mk _ j _ => j

/-- Field access candidate.prev. -/
def candidate.prev : candidate → Option candidate
  | .mk _ _ p => p

/-- The initial table entry &candidate{-1, -1, nil}. -/
def sentinel : candidate := .mk (-1) (-1) none

/-- Go sort.Search's loop body: i, j bracket the search; h := (i+j)/2 is
probed; fuel bounds the number of iterations (j-i shrinks each step, so any
fuel above the initial j-i is sufficient and the fallout value is never
reached from the wrappers below). -/
def goSearchGo (f : Nat → Bool) : Nat → Nat → Nat → Nat
  | 0, i, _ => i
  | fuel+1, i, j =>
    if i < j then
      let h := (i + j) / 2
      if f h then goSearchGo f fuel i h else goSearchGo f fuel (h+1) j
    else i

/-- Go sort.Search(n, f): smallest index in [0,n] at which f flips to true,
assuming f monotone (which holds at every use in this code). -/
def goSearch (n : Nat) (f : Nat → Bool) : Nat := goSearchGo f (n+1) 0 n

/-- The comparison closure passed to sort.Slice in makeClasses: order by
value, break ties by original index (ascending). -/
def classRel (x y : element) : Prop := x.v < y.v ∨ (x.v = y.v ∧ x.i ≤ y.i)

instance : DecidableRel classRel := fun x y => by
  unfold classRel; infer_instance

instance : IsTotal element classRel where
  total x y := by
    rcases Nat.lt_trichotomy x.v y.v with h | h | h
    · exact Or.inl (Or.inl h)
    · rcases Nat.le_total x.i y.i with h2 | h2
      · exact Or.inl (Or.inr ⟨h, h2⟩)
      · exact Or.inr (Or.inr ⟨h.symm, h2⟩)
    · exact Or.inr (Or.inl h)

instance : IsTrans element classRel where
  trans x y z hxy hyz := by
    rcases hxy with h1 | ⟨h1, h1'⟩ <;> rcases hyz with h2 | ⟨h2, h2'⟩
    · exact Or.inl (Nat.lt_trans h1 h2)
    · exact Or.inl (h2 ▸ h1)
    · exact Or.inl (h1 ▸ h2)
    · exact Or.inr ⟨h1.trans h2, Nat.le_trans h1' h2'⟩

/-- The flag-setting pass of makeClasses: l[i].last = (l[i].v != l[i+1].v)
for i < len-1, and l[len-1].last = true. (Go writes into the sorted slice
in place; here the whole pass is one traversal.) -/
def setLast : List element → List element
  | [] => []
  | [x] => [{ x with last := true }]
  | x :: y :: rest => { x with last := x.v ≠ y.v } :: setLast (y :: rest)

/-- Go func makeClasses(b []uint64) classes: pair every element with its
index, sort by (value, index), then mark the last entry of every run of
equal values. sort.Slice is unstable, but the comparator is a strict total
order on the (distinct) index-value pairs, so the sorted permutation is
unique and insertionSort computes exactly what the Go code computes. -/
def makeClasses (b : List Nat) : List element :=
  setLast (List.insertionSort classRel (b.mapIdx fun i v => element.mk i v false))

/-- Value of the index entry at position n (positions are always in range at
use sites; the default is never reached there). -/
def elemAtV (l : List element) (n : Nat) : Nat := ((l.get? n).map element.v).getD 0

/-- Go func (l classes) findFirst(v uint64) int: binary search for the first
entry with value >= v, returning len(l) if that entry's value is not v. -/
def findFirst (l : List element) (v : Nat) : Nat :=
  let n := goSearch l.length (fun n => v ≤ elemAtV l n)
  if n < l.length ∧ elemAtV l n ≠ v then l.length else n

/-- The j-field of the candidate at slot s of the table K (slots are always
in range at use sites). -/
def jAt (K : List candidate) : Nat → Int
  | s => ((K.get? s).map candidate.j).getD 0

/-- One inner scan of the search (hash_go1.14.go lines 97-115): starting at
index entry e, look for the first entry of the value group that strictly
extends some chain; on success update slot s of K (appending when s =
len(K)); a return of none models a Go panic (the only candidate is K[s-1]
with s = 0, i.e. index -1). The fuel dominates len(l) - e. -/
def scanFrom (l : List element) (lb : Nat) (i : Nat) (K : List candidate) :
    Nat → Nat → Option (List candidate)
  | _, 0 => none
  | e, fuel+1 =>
    match l.get? e with
    | none => some K
    | some el =>
      if el.i ≥ lb then some K
      else
        let j : Int := el.i
        let s := goSearch K.length (fun s => jAt K s > j)
        if s = 0 then none
        else
          match K.get? (s-1) with
          | none => none
          | some km1 =>
            if km1.j < j then
              let c := candidate.mk i j (some km1)
              some (if s = K.length then K ++ [c] else K.set s c)
            else if el.last then some K
            else scanFrom l lb i K (e+1) fuel

/-- Processing of one element of the longer sequence: pv is the precomputed
p[i] = findFirst(l, a[i]). -/
def searchStep (l : List element) (lb : Nat) (K : List candidate) (i : Nat)
    (pv : Nat) : Option (List candidate) :=
  scanFrom l lb i K pv (l.length + 1)

/-- The candidate-chain search loop over the longer sequence, threading the
table K; i is the index of the next element. -/
def runSearchGo (l : List element) (lb : Nat) :
    List candidate → Nat → List Nat → Option (List candidate)
  | K, _, [] => some K
  | K, i, pv :: rest =>
    match searchStep l lb K i pv with
    | none => none
    | some K2 => runSearchGo l lb K2 (i+1) rest

/-- The full candidate-chain search: start from the table [sentinel] and
process the precomputed first-position list ps. -/
def runSearch (l : List element) (lb : Nat) (ps : List Nat) :
    Option (List candidate) :=
  runSearchGo l lb [sentinel] 0 ps

/-- The backward reconstruction loop (hash_go1.14.go lines 125-139), emitting
ops in the order the Go loop assigns them (out[len-1] first); the final
output is the reverse. A none models the Go panic of dereferencing a nil
candidate pointer. The fuel is the exact size len(a)+len(b)-k of out. -/
def walk (sw : Int) : Nat → Int → Int → Option candidate → Option (List Op)
  | 0, _, _, _ => some []
  | n+1, i, j, oc =>
    match oc with
    | none => none
    | some c =>
      if i > c.i then (walk sw n (i-1) j oc).map (fun r => OpA * sw :: r)
      else if j > c.j then (walk sw n i (j-1) oc).map (fun r => OpB * sw :: r)
      else (walk sw n (i-1) (j-1) c.prev).map (fun r => OpEq :: r)

/-- The common-prefix trimming loop (hash_go1.14.go lines 52-55): record one
OpEq per equal leading pair and drop it from both sides. -/
def trimFront : List Nat → List Nat → List Op × List Nat × List Nat
  | x :: a, y :: b =>
    if x = y then
      let r := trimFront a b
      (OpEq :: r.1, r.2.1, r.2.2)
    else ([], x :: a, y :: b)
  | a, b => ([], a, b)

/-- The common-suffix trimming loop (hash_go1.14.go lines 56-59): same loop
as trimFront run on the reversed sequences (one OpEq recorded per equal
trailing pair). -/
def trimBack (a b : List Nat) : List Op × List Nat × List Nat :=
  let r := trimFront a.reverse b.reverse
  (r.1, r.2.1.reverse, r.2.2.reverse)

/-- The loop at hash_go1.14.go lines 60-62, exactly as written in the source:
for i := 0; i < len(suffix)/2; i++ swap a[i] with a[len(a)-i-1], where a is
the remaining middle of the left input. cnt counts the iterations still to
run, idx is the loop variable i. An out-of-range index (which Go hits
whenever i >= len(a)) is modelled by none. -/
def swapLoopGo : List Nat → Nat → Nat → Option (List Nat)
  | a, _, 0 => some a
  | a, idx, cnt+1 =>
    if idx < a.length then
      let hi := a.length - idx - 1
      swapLoopGo ((a.set idx (a.getD hi 0)).set hi (a.getD idx 0)) (idx+1) cnt
    else none

/-- Entry of the swap loop: cnt = len(suffix)/2 iterations starting at i = 0. -/
def swapLoop (a : List Nat) (cnt : Nat) : Option (List Nat) :=
  swapLoopGo a 0 cnt

/-- Go func Uint64(a, b []uint64) []Op (hash_go1.14.go lines 50-141),
modelled step for step; none models a panic. -/
def Uint64 (a0 b0 : List Nat) : Option (List Op) :=
  let t1 := trimFront a0 b0
  let pre := t1.1
  let a1 := t1.2.1
  let b1 := t1.2.2
  let t2 := trimBack a1 b1
  let suf := t2.1
  let a2 := t2.2.1
  let b2 := t2.2.2
  match swapLoop a2 (suf.length / 2) with
  | none => none
  | some a3 =>
    if a3.length = 0 then some (pre ++ List.replicate b2.length OpB ++ suf)
    else if b2.length = 0 then some (pre ++ List.replicate a3.length OpA ++ suf)
    else
      let aa := if a3.length < b2.length then b2 else a3
      let bb := if a3.length < b2.length then a3 else b2
      let sw : Int := if a3.length < b2.length then -1 else 1
      let l := makeClasses bb
      let ps := aa.map (fun v => findFirst l v)
      match runSearch l bb.length ps with
      | none => none
      | some K =>
        let k := K.length - 1
        match K.get? k with
        | none => none
        | some c =>
          match walk sw (aa.length + bb.length - k) ((aa.length : Int) - 1)
              ((bb.length : Int) - 1) (some c) with
          | none => none
          | some r => some (pre ++ r.reverse ++ suf)

/-- The caller-visible contents of the slice a after Uint64(a, b) returns.
Go slices alias the caller's backing array: the trimming loops only
re-slice, but the swap loop at lines 60-62 writes through the slice into
the middle portion (after the trimmed prefix, before the trimmed suffix);
everything else is untouched, and b is never written. -/
def callerA (a0 b0 : List Nat) : Option (List Nat) :=
  let t1 := trimFront a0 b0
  let pre := t1.1
  let a1 := t1.2.1
  let b1 := t1.2.2
  let t2 := trimBack a1 b1
  let suf := t2.1
  let a2 := t2.2.1
  (swapLoop a2 (suf.length / 2)).map fun a3 =>
    a0.take pre.length ++ a3 ++ a0.drop (pre.length + a2.length)

/-- Does an op consume an element of the left sequence? The Go test suite
uses the comparison o < OpB for this (diff_test.go line 64). -/
def consumesA (d : Op) : Bool := d < OpB

/-- Does an op consume an element of the right sequence? Go: o > OpA. -/
def consumesB (d : Op) : Bool := d > OpA

/-- Replay check of the Go test suite (diff_test.go lines 51-70): walk the
op list, consuming one element of a per op with op < OpB and one element of
b per op with op > OpA, and demand that every OpEq pairs equal values and
that no side runs dry. -/
def eqPairsOK : List Op → List Nat → List Nat → Bool
  | [], _, _ => true
  | d :: ds, a, b =>
    if d = OpEq then
      match a, b with
      | x :: a2, y :: b2 => x == y && eqPairsOK ds a2 b2
      | _, _ => false
    else if d < OpB then
      match a with
      | _ :: a2 => eqPairsOK ds a2 b
      | [] => false
    else
      match b with
      | _ :: b2 => eqPairsOK ds a b2
      | [] => false

/-- Modelled from the spec: the reference quadratic longest-common-
subsequence length that spec section 8 names as the independent test
oracle (it is not part of src/). Fuel-indexed so that it evaluates by
kernel reduction; the sum of the lengths bounds the recursion depth. -/
def lcsLenGo : Nat → List Nat → List Nat → Nat
  | 0, _, _ => 0
  | _+1, [], _ => 0
  | _+1, _ :: _, [] => 0
  | fuel+1, x :: xs, y :: ys =>
    if x = y then lcsLenGo fuel xs ys + 1
    else max (lcsLenGo fuel (x :: xs) ys) (lcsLenGo fuel xs (y :: ys))

/-- Reference LCS length of two sequences (see lcsLenGo). -/
def lcsLen (a b : List Nat) : Nat := lcsLenGo (a.length + b.length) a b

/-- The two ways the Go tokenize loop can panic: the explicit
panic(invalid split) for a contract-violating splitter return, and a
slice-bounds panic when the returned lengths reach past the buffer end. -/
inductive TokErr where
  | invalidSplit (tok skip : Int)
  | oob
deriving Repr, DecidableEq

/-- Go func tokenize(a []byte, h HashFunc, s SplitFunc) (hash_go1.14.go
lines 235-250): repeatedly split a token off the front of a, hash it, and
continue with the rest. Each successful iteration drops tok+skip >= 1
bytes, so fuel = len(a) suffices; the fuel-exhaustion branch is
unreachable from the tokenize wrapper. Go panics become errors: the
explicit invalid-split panic, and the out-of-range panic of a[:tok] or
a[tok+skip:] when tok+skip > len(a). -/
def tokenizeGo (h : List Nat → Nat) (s : List Nat → Int × Int) :
    Nat → List Nat → Except TokErr (List (List Nat) × List Nat)
  | _, [] => .ok ([], [])
  | 0, _ :: _ => .error .oob
  | fuel+1, x :: rest =>
    let a := x :: rest
    let ts := s a
    let tok := ts.1
    let sk := ts.2
    if tok < 0 ∨ sk < 0 ∨ tok + sk = 0 then .error (.invalidSplit tok sk)
    else if (a.length : Int) < tok + sk then .error .oob
    else
      match tokenizeGo h s fuel (a.drop (tok + sk).toNat) with
      | .error e => .error e
      | .ok r => .ok (a.take tok.toNat :: r.1, h (a.take tok.toNat) :: r.2)

/-- Entry point of the tokenize loop. -/
def tokenize (h : List Nat → Nat) (s : List Nat → Int × Int) (a : List Nat) :
    Except TokErr (List (List Nat) × List Nat) :=
  tokenizeGo h s a.length a

/-- Go: type TextDelta struct { Op; Text []byte }. -/
structure TextDelta where
  op : Op
  text : List Nat
deriving Repr, DecidableEq

/-- The re-attachment loop of Text (hash_go1.14.go lines 215-226): for each
op build a delta; if the op consumes from b (d > OpA) take the head of the
right token list, then if it consumes from a (d < OpB) take the head of the
left token list, the later assignment overwriting the earlier one (so an
OpEq delta ends up carrying the left-side token). none models the panic of
indexing an empty token list. -/
def reattach : List Op → List (List Nat) → List (List Nat) → Option (List TextDelta)
  | [], _, _ => some []
  | d :: ds, la, lb =>
    match (if d > OpA then
             match lb with
             | [] => none
             | t :: lb2 => some (t, lb2)
           else some (([] : List Nat), lb)) with
    | none => none
    | some (t1, lb2) =>
      match (if d < OpB then
               match la with
               | [] => none
               | t :: la2 => some (t, la2)
             else some (t1, la)) with
      | none => none
      | some (t2, la2) =>
        (reattach ds la2 lb2).map (fun rest => TextDelta.mk d t2 :: rest)

/-- Go func Text(a, b []byte, s SplitFunc, h HashFunc) []TextDelta
(hash_go1.14.go lines 204-228), with the splitter and hash passed
explicitly (the nil-defaulting of the Go code chooses SplitLines and the
process-seeded DefaultHash; the claims quantify over the functions
themselves). none models any panic (tokenize, Uint64 or re-attachment). -/
def Text (a b : List Nat) (s : List Nat → Int × Int) (h : List Nat → Nat) :
    Option (List TextDelta) :=
  match tokenize h s a, tokenize h s b with
  | .ok ra, .ok rb =>
    match Uint64 ra.2 rb.2 with
    | none => none
    | some d => reattach d ra.1 rb.1
  | _, _ => none

/-- A splitter that returns the whole remaining buffer as one token:
(len(b), 0). It satisfies the documented SplitFunc contract on every
non-empty buffer and never reaches past the end. -/
def wholeSplit : List Nat → Int × Int := fun bs => ((bs.length : Int), 0)

/-- A splitter returning constant (2, 0): non-negative, positive sum, so it
never violates the documented SplitFunc contract, but on a one-byte buffer
the token reaches past the end. -/
def overSplit : List Nat → Int × Int := fun _ => (2, 0)

/-- A splitter returning constant (-1, 1): a contract violation. -/
def negSplit : List Nat → Int × Int := fun _ => (-1, 1)

/-- A hash function mapping every token to 0 (every pair of tokens
collides). -/
def zeroHash : List Nat → Nat := fun _ => 0

/-- The documented SplitFunc contract violation: a negative length or an
all-zero pair (hash_go1.14.go lines 252-255). -/
def BadRet (ts : Int × Int) : Prop := ts.1 < 0 ∨ ts.2 < 0 ∨ ts.1 + ts.2 = 0

/-- A splitter that on every non-empty buffer satisfies the documented
contract and additionally never reaches past the end of the buffer. -/
def GoodSplit (s : List Nat → Int × Int) : Prop :=
  ∀ a : List Nat, a ≠ [] →
    0 ≤ (s a).1 ∧ 0 ≤ (s a).2 ∧ 0 < (s a).1 + (s a).2 ∧
      (s a).1 + (s a).2 ≤ (a.length : Int)

/-! Theorems. -/

/-- Claim C1: the round-trip property fails on the code as a universal
statement: on inputs a = [9,9], b = [3,9,9] the suffix swap loop
(hash_go1.14.go lines 60-62) indexes the empty remaining middle of a out
of range, so the call panics and no operation list is returned at all. -/
theorem C1_roundtrip_panics : Uint64 [9,9] [3,9,9] = none := by decide

/-- Claim C2: on inputs a = [1,2,7,7], b = [2,1,7,7] the code returns four
Equal ops, and the replay check of the code's own test suite (every Equal
op must pair equal values, diff_test.go lines 58-60) fails on that result:
the first Equal op pairs a's 1 with b's 2. -/
theorem C2_equal_pairs_unequal :
    Uint64 [1,2,7,7] [2,1,7,7] = some [OpEq, OpEq, OpEq, OpEq] ∧
    eqPairsOK [OpEq, OpEq, OpEq, OpEq] [1,2,7,7] [2,1,7,7] = false := by decide

/-- Claim C3: on inputs a = [1,2,7,7], b = [2,1,7,7] the code returns 4
Equal ops in a result of total length 4, but the reference LCS length is 3,
so the Equal count exceeds the LCS length and the total length is not
len(a) + len(b) - L = 5. -/
theorem C3_not_optimal :
    (Uint64 [1,2,7,7] [2,1,7,7]).map (fun out => (List.count OpEq out, out.length)) =
      some (4, 4) ∧
    lcsLen [1,2,7,7] [2,1,7,7] = 3 := by decide

/-- Claim C4: Uint64 is not total: on a = [7,7], b = [1,7,7] the suffix
swap loop runs one iteration with an empty remaining middle and indexes it
out of range, a Go runtime panic. -/
theorem C4_not_total : Uint64 [7,7] [1,7,7] = none := by decide

/-- Claim C5: Uint64 mutates the caller's first sequence: on
a = [1,2,7,7], b = [2,1,7,7] the suffix swap loop writes through the slice
and the caller afterwards sees [2,1,7,7] in place of [1,2,7,7] (the code's
own test asserts no such mutation, diff_test.go lines 40-42). -/
theorem C5_mutates_input :
    callerA [1,2,7,7] [2,1,7,7] = some [2,1,7,7] ∧
    ([2,1,7,7] : List Nat) ≠ [1,2,7,7] := by decide

/-- Trimming a sequence against itself consumes all of it, recording one
OpEq per element. -/
theorem trimFront_self (L : List Nat) :
    trimFront L L = (List.replicate L.length OpEq, [], []) := by
  induction L with
  | nil => rfl
  | cons x xs ih => simp [trimFront, ih, List.replicate]

/-- Claim C6: diffing a sequence against itself returns exactly len(L)
Equal ops and nothing else (the prefix-trimming loop consumes everything,
so the buggy swap loop runs zero iterations and the degenerate branch
returns the prefix ops alone). -/
theorem C6_diff_self (L : List Nat) :
    Uint64 L L = some (List.replicate L.length OpEq) := by
  simp [Uint64, trimFront_self L, trimBack, trimFront, swapLoop, swapLoopGo]


/-- Invariant characterisation of Go sort.Search's loop: for a predicate f
monotone below n, the loop run on a bracket [i, j] with all-false below i
and the flip at or above j returns the least flip point (or n). The fuel
dominates j - i. -/
theorem goSearchGo_spec (f : Nat → Bool) (n : Nat)
    (hm : ∀ x y, x ≤ y → y < n → f x = true → f y = true) :
    ∀ fuel i j, i ≤ j → j ≤ n → j - i ≤ fuel →
      (∀ x, x < i → f x = false) → (j = n ∨ f j = true) →
      i ≤ goSearchGo f fuel i j ∧ goSearchGo f fuel i j ≤ j ∧
      (∀ x, x < goSearchGo f fuel i j → f x = false) ∧
      (goSearchGo f fuel i j = n ∨ f (goSearchGo f fuel i j) = true) := by
  intro fuel
  induction fuel with
  | zero =>
    intro i j hij hjn hfuel hlo hhi
    have hj : i = j := by omega
    subst hj
    exact ⟨le_rfl, le_rfl, hlo, hhi⟩
  | succ fuel ih =>
    intro i j hij hjn hfuel hlo hhi
    by_cases hlt : i < j
    · cases hfh : f ((i+j)/2) with
      | true =>
        have h := ih i ((i+j)/2) (by omega) (by omega) (by omega) hlo (Or.inr hfh)
        have hres : goSearchGo f (fuel+1) i j = goSearchGo f fuel i ((i+j)/2) := by
          simp [goSearchGo, hlt, hfh]
        rw [hres]
        exact ⟨h.1, le_trans h.2.1 (by omega), h.2.2.1, h.2.2.2⟩
      | false =>
        have hlo2 : ∀ x, x < (i+j)/2 + 1 → f x = false := by
          intro x hx
          by_cases hxi : x < i
          · exact hlo x hxi
          · cases hfx : f x with
            | false => rfl
            | true =>
              have hc : f ((i+j)/2) = true := hm x ((i+j)/2) (by omega) (by omega) hfx
              rw [hc] at hfh
              cases hfh
        have h := ih ((i+j)/2 + 1) j (by omega) hjn (by omega) hlo2 hhi
        have hres : goSearchGo f (fuel+1) i j = goSearchGo f fuel ((i+j)/2 + 1) j := by
          simp [goSearchGo, hlt, hfh]
        rw [hres]
        exact ⟨le_trans (by omega) h.1, h.2.1, h.2.2.1, h.2.2.2⟩
    · have hres : goSearchGo f (fuel+1) i j = i := by
        simp [goSearchGo, hlt]
      rw [hres]
      have hj : i = j := by omega
      exact ⟨le_rfl, hij, hlo, hj ▸ hhi⟩

/-- Go sort.Search(n, f) for a monotone predicate returns the least index at
which f is true, n if there is none: all indices below the result are
false, and the result is n or satisfies f. -/
theorem goSearch_spec (n : Nat) (f : Nat → Bool)
    (hm : ∀ x y, x ≤ y → y < n → f x = true → f y = true) :
    goSearch n f ≤ n ∧ (∀ x, x < goSearch n f → f x = false) ∧
      (goSearch n f = n ∨ f (goSearch n f) = true) := by
  have h := goSearchGo_spec f n hm (n+1) 0 n (Nat.zero_le n) le_rfl (by omega)
    (fun x hx => absurd hx (Nat.not_lt_zero x)) (Or.inl rfl)
  exact ⟨h.2.1, h.2.2.1, h.2.2.2⟩


/-- The flag-setting pass does not change the values of the entries. -/
theorem setLast_map_v : ∀ l : List element, (setLast l).map element.v = l.map element.v
  | [] => rfl
  | [_] => rfl
  | x :: y :: rest => by
    have ih := setLast_map_v (y :: rest)
    simp [setLast, ih]

/-- The equivalence index is sorted by value (weakly increasing): the sort
orders by (value, original index) and the flag pass only touches flags. -/
theorem makeClasses_sorted_v (b : List Nat) :
    ((makeClasses b).map element.v).Pairwise (· ≤ ·) := by
  have hs := List.sorted_insertionSort classRel (b.mapIdx fun i v => element.mk i v false)
  have hv : (List.insertionSort classRel (b.mapIdx fun i v => element.mk i v false)).Pairwise
      (fun x y : element => x.v ≤ y.v) := by
    refine hs.imp ?_
    intro x y hxy
    rcases hxy with h | ⟨h, _⟩
    · exact Nat.le_of_lt h
    · exact Nat.le_of_eq h
  unfold makeClasses
  rw [setLast_map_v]
  exact List.pairwise_map.mpr hv

/-- elemAtV at an in-range position is the value of the entry there. -/
theorem elemAtV_get {l : List element} {m : Nat} (hm : m < l.length) :
    elemAtV l m = (l.get ⟨m, hm⟩).v := by
  show ((l.get? m).map element.v).getD 0 = _
  rw [List.get?_eq_get hm]
  rfl

/-- In a value-sorted index the entry values are monotone in the position. -/
theorem elemAtV_mono {l : List element} (hp : (l.map element.v).Pairwise (· ≤ ·))
    {m k : Nat} (hmk : m ≤ k) (hk : k < l.length) :
    elemAtV l m ≤ elemAtV l k := by
  rcases Nat.eq_or_lt_of_le hmk with h | hlt
  · subst h; exact le_rfl
  · have hm : m < l.length := lt_trans hlt hk
    have hg := List.pairwise_iff_get.mp hp ⟨m, by simpa⟩ ⟨k, by simpa⟩ hlt
    simpa [elemAtV_get hm, elemAtV_get hk, List.getElem_map] using hg

/-- Claim C8: findFirst on an index built over a non-empty sequence returns
the position of the first entry with value at or above v when some entry's
value is exactly v (that entry then has value v and everything before it is
strictly below v), and the sentinel position len(index) otherwise. -/
theorem C8_findFirst (b : List Nat) (_hb : b ≠ []) (v : Nat) :
    ((∃ e ∈ makeClasses b, e.v = v) →
        findFirst (makeClasses b) v < (makeClasses b).length ∧
        elemAtV (makeClasses b) (findFirst (makeClasses b) v) = v ∧
        ∀ m, m < findFirst (makeClasses b) v → elemAtV (makeClasses b) m < v) ∧
    ((∀ e ∈ makeClasses b, e.v ≠ v) →
        findFirst (makeClasses b) v = (makeClasses b).length) := by
  have hp := makeClasses_sorted_v b
  set l := makeClasses b with hl
  have hmono : ∀ x y, x ≤ y → y < l.length →
      decide (v ≤ elemAtV l x) = true → decide (v ≤ elemAtV l y) = true := by
    intro x y hxy hy hx
    have := elemAtV_mono hp hxy hy
    simp only [decide_eq_true_eq] at hx ⊢
    omega
  have hspec := goSearch_spec l.length (fun n => decide (v ≤ elemAtV l n)) hmono
  set r := goSearch l.length (fun n => decide (v ≤ elemAtV l n)) with hr
  obtain ⟨hrle, hbelow, hflip⟩ := hspec
  have hff : findFirst l v = if r < l.length ∧ elemAtV l r ≠ v then l.length else r := rfl
  have hbelow' : ∀ m, m < r → elemAtV l m < v := by
    intro m hmr
    have := hbelow m hmr
    simp only [decide_eq_false_iff_not] at this
    omega
  constructor
  · rintro ⟨e, he, hev⟩
    obtain ⟨idx, hidx⟩ := List.get_of_mem he
    have hidxv : elemAtV l idx.1 = v := by rw [elemAtV_get idx.2, Fin.eta, hidx, hev]
    have hridx : r ≤ idx.1 := by
      by_contra hc
      have := hbelow' idx.1 (by omega)
      omega
    have hrlen : r < l.length := lt_of_le_of_lt hridx idx.2
    have hrv : elemAtV l r = v := by
      rcases hflip with h | h
      · omega
      · simp only [decide_eq_true_eq] at h
        have := elemAtV_mono hp hridx idx.2
        omega
    have hcond : ¬(r < l.length ∧ elemAtV l r ≠ v) := by
      intro hc
      exact hc.2 hrv
    rw [hff, if_neg hcond]
    exact ⟨hrlen, hrv, hbelow'⟩
  · intro hno
    rcases Nat.eq_or_lt_of_le hrle with h | hrlen
    · have hcond : ¬(r < l.length ∧ elemAtV l r ≠ v) := by
        intro hc
        omega
      rw [hff, if_neg hcond, h]
    · have hrv : elemAtV l r ≠ v := by
        have hmem := List.get_mem l r hrlen
        have := hno _ hmem
        rw [elemAtV_get hrlen]
        exact this
      rw [hff, if_pos ⟨hrlen, hrv⟩]


/-- Witness for C8_findFirst at the non-empty sequence [5,3,5] and v = 5. -/
theorem C8_findFirst_witness :
    (([5,3,5] : List Nat) ≠ []) ∧
    (((∃ e ∈ makeClasses [5,3,5], e.v = 5) →
        findFirst (makeClasses [5,3,5]) 5 < (makeClasses [5,3,5]).length ∧
        elemAtV (makeClasses [5,3,5]) (findFirst (makeClasses [5,3,5]) 5) = 5 ∧
        ∀ m, m < findFirst (makeClasses [5,3,5]) 5 →
          elemAtV (makeClasses [5,3,5]) m < 5) ∧
      ((∀ e ∈ makeClasses [5,3,5], e.v ≠ 5) →
        findFirst (makeClasses [5,3,5]) 5 = (makeClasses [5,3,5]).length)) :=
  ⟨by decide, C8_findFirst [5,3,5] (by decide) 5⟩

/-- The search-loop invariant on the candidate table K before processing
element i of the longer sequence: slot 0 still holds the sentinel, the
shorter-side indices K[k].j are strictly increasing in the slot number k,
and every stored candidate was created by an earlier iteration. -/
def tableInv (K : List candidate) (i : Nat) : Prop :=
  K.get? 0 = some sentinel ∧
  (K.map candidate.j).Pairwise (· < ·) ∧
  ∀ c ∈ K, c.i < (i : Int)

/-- jAt at an in-range slot is the j field of the candidate there. -/
theorem jAt_get {K : List candidate} {m : Nat} (hm : m < K.length) :
    jAt K m = (K.get ⟨m, hm⟩).j := by
  show ((K.get? m).map candidate.j).getD 0 = _
  rw [List.get?_eq_get hm]
  rfl

/-- Strict increase of the slot j-fields, phrased over positions. -/
theorem pairwise_j_iff (K : List candidate) :
    (K.map candidate.j).Pairwise (· < ·) ↔
    ∀ x y, x < y → y < K.length → jAt K x < jAt K y := by
  rw [List.pairwise_iff_get]
  constructor
  · intro h x y hxy hy
    have hx : x < K.length := lt_trans hxy hy
    have hg := h ⟨x, by simpa⟩ ⟨y, by simpa⟩ hxy
    simpa [jAt_get hx, jAt_get hy, List.getElem_map] using hg
  · intro h x y hxy
    have hy : (y : Nat) < K.length := by simpa using y.2
    have hx : (x : Nat) < K.length := by simpa using x.2
    have hg := h x y hxy hy
    simpa [jAt_get hx, jAt_get hy, List.getElem_map] using hg

/-- The inner group scan never panics and preserves the table invariant:
the guard K[s-1].j < j checked by the code, the least-flip property of the
binary search, and the strict increase of the old table together show that
writing the new candidate into slot s (or appending it) keeps the j-fields
strictly increasing; all other paths leave K unchanged. -/
theorem scanFrom_inv (l : List element) (lb : Nat) (i : Nat) :
    ∀ fuel e K, l.length - e < fuel → tableInv K i →
      ∃ K2, scanFrom l lb i K e fuel = some K2 ∧ tableInv K2 (i+1) := by
  intro fuel
  induction fuel with
  | zero => intro e K hf _; omega
  | succ fuel ih =>
    intro e K hf hinv
    obtain ⟨hsent, hpw, hii⟩ := hinv
    have hkeep : tableInv K (i+1) :=
      ⟨hsent, hpw, fun c hc => lt_trans (hii c hc) (by exact_mod_cast Nat.lt_succ_self i)⟩
    cases hge : l.get? e with
    | none => exact ⟨K, by simp only [scanFrom, hge], hkeep⟩
    | some el =>
      by_cases hjb : lb ≤ el.i
      · refine ⟨K, ?_, hkeep⟩
        simp only [scanFrom, hge]
        rw [if_pos hjb]
      · have hKlen : 0 < K.length := by
          rcases List.get?_eq_some.mp hsent with ⟨h, _⟩
          exact h
        have hjat0 : jAt K 0 = -1 := by
          show ((K.get? 0).map candidate.j).getD 0 = -1
          rw [hsent]
          rfl
        have hmono : ∀ x y, x ≤ y → y < K.length →
            decide (jAt K x > (el.i : Int)) = true →
            decide (jAt K y > (el.i : Int)) = true := by
          intro x y hxy hy hx
          simp only [decide_eq_true_eq] at hx ⊢
          rcases Nat.eq_or_lt_of_le hxy with h | h
          · subst h; exact hx
          · exact lt_trans hx ((pairwise_j_iff K).mp hpw x y h hy)
        have hspec := goSearch_spec K.length (fun s => decide (jAt K s > (el.i : Int))) hmono
        set s := goSearch K.length (fun s => decide (jAt K s > (el.i : Int))) with hsdef
        obtain ⟨hsle, hbel, hflip⟩ := hspec
        have hs1 : 1 ≤ s := by
          rcases Nat.eq_zero_or_pos s with h0 | h1
          · exfalso
            rcases hflip with h | h
            · omega
            · rw [h0] at h
              simp only [decide_eq_true_eq, hjat0] at h
              omega
          · exact h1
        have hs0 : ¬ s = 0 := by omega
        have hsm1 : s - 1 < K.length := by omega
        have hkm1 : K.get? (s-1) = some (K.get ⟨s-1, hsm1⟩) := List.get?_eq_get hsm1
        set km1 := K.get ⟨s-1, hsm1⟩ with hkm1def
        have hel : e < l.length := by
          rcases List.get?_eq_some.mp hge with ⟨h, _⟩
          exact h
        by_cases hkm : km1.j < (el.i : Int)
        · -- a new candidate is created and stored in slot s
          have hstrictlt : ∀ x, x < s → jAt K x < (el.i : Int) := by
            intro x hx
            by_cases hxe : x = s - 1
            · rw [hxe, jAt_get hsm1]
              exact hkm
            · have hxlt : x < s - 1 := by omega
              have hlt2 := (pairwise_j_iff K).mp hpw x (s-1) hxlt hsm1
              rw [jAt_get hsm1, ← hkm1def] at hlt2
              omega
          have hup : s < K.length → (el.i : Int) < jAt K s := by
            intro hslt
            rcases hflip with h | h
            · omega
            · simpa [decide_eq_true_eq] using h
          have hcmem : ∀ K2 : List candidate,
              (∀ c2 ∈ K2, c2 ∈ K ∨ c2 = candidate.mk i (el.i : Int) (some km1)) →
              ∀ c2 ∈ K2, c2.i < ((i+1 : Nat) : Int) := by
            intro K2 hsub c2 hc2
            rcases hsub c2 hc2 with h | h
            · have := hii c2 h
              omega
            · rw [h]
              show (i : Int) < ((i+1 : Nat) : Int)
              omega
          by_cases hsl : s = K.length
          · -- append: K2 = K ++ [c]
            set c := candidate.mk i (el.i : Int) (some km1) with hcdef
            refine ⟨K ++ [c], ?_, ?_, ?_, ?_⟩
            · simp only [scanFrom, hge]
              rw [if_neg hjb, ← hsdef, if_neg hs0, hkm1]
              simp only [if_pos hkm, if_pos hsl, ← hcdef]
            · rw [List.get?_append hKlen]
              exact hsent
            · rw [pairwise_j_iff]
              intro x y hxy hy
              have hy2 : y < K.length + 1 := by simpa using hy
              have hjapp_lt : ∀ z, z < K.length → jAt (K ++ [c]) z = jAt K z := by
                intro z hz
                show (((K ++ [c]).get? z).map candidate.j).getD 0 = _
                rw [List.get?_append hz]
                rfl
              have hjapp_len : jAt (K ++ [c]) K.length = (el.i : Int) := by
                show (((K ++ [c]).get? K.length).map candidate.j).getD 0 = _
                rw [List.get?_concat_length]
                rfl
              by_cases hyl : y = K.length
              · rw [hyl, hjapp_len, hjapp_lt x (by omega)]
                exact hstrictlt x (by omega)
              · have hylt : y < K.length := by omega
                rw [hjapp_lt x (by omega), hjapp_lt y hylt]
                exact (pairwise_j_iff K).mp hpw x y hxy hylt
            · refine hcmem _ ?_
              intro c2 hc2
              rcases List.mem_append.mp hc2 with h | h
              · exact Or.inl h
              · exact Or.inr (by simpa [hcdef] using h)
          · -- in-place update: K2 = K.set s c
            have hslt : s < K.length := by omega
            set c := candidate.mk i (el.i : Int) (some km1) with hcdef
            refine ⟨K.set s c, ?_, ?_, ?_, ?_⟩
            · simp only [scanFrom, hge]
              rw [if_neg hjb, ← hsdef, if_neg hs0, hkm1]
              simp only [if_pos hkm, if_neg hsl, ← hcdef]
            · rw [List.get?_set_ne _ _ (by omega : s ≠ 0)]
              exact hsent
            · rw [pairwise_j_iff]
              intro x y hxy hy
              have hy2 : y < K.length := by simpa using hy
              have hjset_s : jAt (K.set s c) s = (el.i : Int) := by
                show (((K.set s c).get? s).map candidate.j).getD 0 = _
                rw [List.get?_set_eq, List.get?_eq_get hslt]
                rfl
              have hjset_ne : ∀ z, z ≠ s → jAt (K.set s c) z = jAt K z := by
                intro z hz
                show (((K.set s c).get? z).map candidate.j).getD 0 = _
                rw [List.get?_set_ne _ _ (Ne.symm hz)]
                rfl
              by_cases hys : y = s
              · rw [hys, hjset_s, hjset_ne x (by omega)]
                exact hstrictlt x (by omega)
              · by_cases hxs : x = s
                · rw [hxs, hjset_s, hjset_ne y hys]
                  have h1 : (el.i : Int) < jAt K s := hup hslt
                  have h2 : jAt K s < jAt K y :=
                    (pairwise_j_iff K).mp hpw s y (by omega) hy2
                  exact lt_trans h1 h2
                · rw [hjset_ne x hxs, hjset_ne y hys]
                  exact (pairwise_j_iff K).mp hpw x y hxy hy2
            · refine hcmem _ ?_
              intro c2 hc2
              rcases List.mem_or_eq_of_mem_set hc2 with h | h
              · exact Or.inl h
              · exact Or.inr (by simpa [hcdef] using h)
        · by_cases hlast : el.last = true
          · refine ⟨K, ?_, hkeep⟩
            simp only [scanFrom, hge]
            rw [if_neg hjb, ← hsdef, if_neg hs0, hkm1]
            simp only [if_neg hkm, if_pos hlast]
          · obtain ⟨K2, hK2, hinv2⟩ := ih (e+1) K (by omega) ⟨hsent, hpw, hii⟩
            refine ⟨K2, ?_, hinv2⟩
            simp only [scanFrom, hge]
            rw [if_neg hjb, ← hsdef, if_neg hs0, hkm1]
            simp only [if_neg hkm, if_neg hlast]
            exact hK2

/-- One iteration of the outer search loop preserves the table invariant
(the fuel len(l)+1 of the inner scan is always sufficient). -/
theorem searchStep_inv (l : List element) (lb : Nat) (K : List candidate)
    (i pv : Nat) (hinv : tableInv K i) :
    ∃ K2, searchStep l lb K i pv = some K2 ∧ tableInv K2 (i+1) :=
  scanFrom_inv l lb i (l.length + 1) pv K (by omega) hinv

/-- The initial table [sentinel] satisfies the invariant. -/
theorem tableInv_init : tableInv [sentinel] 0 := by
  refine ⟨rfl, ?_, ?_⟩
  · simp
  · intro c hc
    rw [List.mem_singleton] at hc
    subst hc
    show (-1 : Int) < 0
    omega

/-- The whole search loop never panics and maintains the table invariant
after every processed element. -/
theorem runSearchGo_inv (l : List element) (lb : Nat) :
    ∀ ps K i, tableInv K i →
      ∃ K2, runSearchGo l lb K i ps = some K2 ∧ tableInv K2 (i + ps.length) := by
  intro ps
  induction ps with
  | nil => intro K i h; exact ⟨K, rfl, by simpa using h⟩
  | cons pv rest ih =>
    intro K i h
    obtain ⟨K1, h1, hinv1⟩ := searchStep_inv l lb K i pv h
    obtain ⟨K2, h2, hinv2⟩ := ih K1 (i+1) hinv1
    refine ⟨K2, ?_, ?_⟩
    · simp only [runSearchGo, h1]
      exact h2
    · have : i + 1 + rest.length = i + (rest.length + 1) := by omega
      rw [this] at hinv2
      simpa using hinv2

/-- Claim C7: throughout the candidate-chain search - that is, after each
element of the longer sequence aa has been processed (n elements of aa for
every n) - the candidate table exists (no step panics) and the
indexInShorter fields K[k].j are strictly increasing in the slot number k.
The table is exactly the one Uint64 builds: the equivalence index of the
shorter side bb, its length bound, and the precomputed findFirst positions
of the elements of aa. -/
theorem C7_table_strictly_increasing (aa bb : List Nat) (n : Nat) :
    ∃ K, runSearch (makeClasses bb) bb.length
        ((aa.take n).map (fun v => findFirst (makeClasses bb) v)) = some K ∧
      (K.map candidate.j).Pairwise (· < ·) := by
  obtain ⟨K, hK, hinv⟩ :=
    runSearchGo_inv (makeClasses bb) bb.length
      ((aa.take n).map (fun v => findFirst (makeClasses bb) v)) [sentinel] 0 tableInv_init
  exact ⟨K, hK, hinv.2.1⟩


/-- Every delta produced by the re-attachment loop whose op consumes from
the left side (op < OpB, which includes every Equal op) carries the next
unconsumed LEFT-side token: the token at the position given by the number
of left-consuming deltas before it. -/
theorem reattach_left_text :
    ∀ (ops : List Op) (la lb : List (List Nat)) (out : List TextDelta),
      reattach ops la lb = some out →
      ∀ n δ, out.get? n = some δ → δ.op < OpB →
        δ.text = la.getD (((out.take n).filter (fun e => decide (e.op < OpB))).length) [] := by
  intro ops
  induction ops with
  | nil =>
    intro la lb out h n δ hδ _
    simp only [reattach, Option.some.injEq] at h
    subst h
    simp at hδ
  | cons d ds ih =>
    intro la lb out h n δ hδ hop
    by_cases hdB : d > OpA
    · cases lb with
      | nil => simp [reattach, hdB] at h
      | cons tb lb2 =>
        by_cases hdA : d < OpB
        · cases la with
          | nil => simp [reattach, hdB, hdA] at h
          | cons ta la2 =>
            simp only [reattach, if_pos hdB, if_pos hdA] at h
            cases hrec : reattach ds la2 lb2 with
            | none => rw [hrec] at h; simp at h
            | some rest =>
              rw [hrec] at h
              simp only [Option.map_some', Option.some.injEq] at h
              subst h
              cases n with
              | zero =>
                simp only [List.get?] at hδ
                injection hδ with hδ
                subst hδ
                rfl
              | succ n =>
                simp only [List.get?] at hδ
                have hres := ih la2 lb2 rest hrec n δ hδ hop
                simp only [List.take_succ_cons, List.filter_cons]
                rw [if_pos (by simpa using hdA)]
                simpa [List.getD] using hres
        · -- d does not consume from the left list; text comes from tb
          simp only [reattach, if_pos hdB, if_neg hdA] at h
          cases hrec : reattach ds la lb2 with
          | none => rw [hrec] at h; simp at h
          | some rest =>
            rw [hrec] at h
            simp only [Option.map_some', Option.some.injEq] at h
            subst h
            cases n with
            | zero =>
              simp only [List.get?] at hδ
              injection hδ with hδ
              subst hδ
              exact absurd hop hdA
            | succ n =>
              simp only [List.get?] at hδ
              have hres := ih la lb2 rest hrec n δ hδ hop
              simp only [List.take_succ_cons, List.filter_cons]
              rw [if_neg (by simpa using hdA)]
              exact hres
    · -- d ≤ OpA: no right-side consumption, must consume from the left
      have hdA : d < OpB := by
        have h1 : ¬ ((-1 : Int) < d) := hdB
        exact lt_of_le_of_lt (not_lt.mp h1) (by decide)
      cases la with
      | nil => simp [reattach, hdB, hdA] at h
      | cons ta la2 =>
        simp only [reattach, if_neg hdB, if_pos hdA] at h
        cases hrec : reattach ds la2 lb with
        | none => rw [hrec] at h; simp at h
        | some rest =>
          rw [hrec] at h
          simp only [Option.map_some', Option.some.injEq] at h
          subst h
          cases n with
          | zero =>
            simp only [List.get?] at hδ
            injection hδ with hδ
            subst hδ
            rfl
          | succ n =>
            simp only [List.get?] at hδ
            have hres := ih la2 lb rest hrec n δ hδ hop
            simp only [List.take_succ_cons, List.filter_cons]
            rw [if_pos (by simpa using hdA)]
            simpa [List.getD] using hres

/-- Claim C9 counterexample: with a one-token splitter and the constant
hash (a hash collision), Text [5] [7] produces a single Equal delta whose
left token is [5] and right token is [7]; the attached text is [5], the
LEFT-side token, not the right-side token [7] the claim requires. -/
theorem C9_cex :
    Text [5] [7] wholeSplit zeroHash = some [TextDelta.mk OpEq [5]] ∧
    tokenize zeroHash wholeSplit [5] = .ok ([[5]], [0]) ∧
    tokenize zeroHash wholeSplit [7] = .ok ([[7]], [0]) ∧
    ([5] : List Nat) ≠ [7] := ⟨rfl, rfl, rfl, by decide⟩

/-- Claim C9 (amended): in the text diff, every Equal op carries the token
taken from the LEFT-side token list: for every pair of inputs, splitter and
hash, every Equal delta of a completed Text run carries the left token at
the position given by the number of left-consuming deltas before it (the
second assignment in the loop body overwrites the right token with the
left one). -/
theorem C9_amended (a b : List Nat) (sp : List Nat → Int × Int)
    (h : List Nat → Nat) (out : List TextDelta)
    (hout : Text a b sp h = some out)
    (la : List (List Nat)) (ha : List Nat)
    (htok : tokenize h sp a = .ok (la, ha))
    (n : Nat) (δ : TextDelta) (hδ : out.get? n = some δ) (hop : δ.op = OpEq) :
    δ.text = la.getD (((out.take n).filter (fun e => decide (e.op < OpB))).length) [] := by
  unfold Text at hout
  rw [htok] at hout
  cases htokb : tokenize h sp b with
  | error e => rw [htokb] at hout; cases hout
  | ok rb =>
    rw [htokb] at hout
    dsimp only at hout
    cases hu : Uint64 ha rb.2 with
    | none =>
      rw [hu] at hout
      cases hout
    | some d =>
      rw [hu] at hout
      exact reattach_left_text d la rb.1 out hout n δ hδ (by rw [hop]; decide)

/-- Witness for C9_amended at the concrete run Text [5] [7] with the
one-token splitter and the constant hash. -/
theorem C9_amended_witness :
    Text [5] [7] wholeSplit zeroHash = some [TextDelta.mk OpEq [5]] ∧
    tokenize zeroHash wholeSplit [5] = .ok ([[5]], [0]) ∧
    ([TextDelta.mk OpEq [5]].get? 0 = some (TextDelta.mk OpEq [5])) ∧
    (TextDelta.mk OpEq [5]).text =
      [[5]].getD
        ((([TextDelta.mk OpEq [5]].take 0).filter (fun e => decide (e.op < OpB))).length) [] :=
  ⟨rfl, rfl, rfl,
    C9_amended [5] [7] wholeSplit zeroHash [TextDelta.mk OpEq [5]] rfl
      [[5]] [0] rfl 0 (TextDelta.mk OpEq [5]) rfl rfl⟩

/-- Claim C10 counterexample: overSplit returns (2,0) on every buffer, so
it satisfies the documented contract (non-negative, positive sum) on the
single call this run makes (buffer [1]), yet tokenization stops with the
out-of-range error rather than completing without error. -/
theorem C10_cex :
    (0 ≤ (overSplit [1]).1 ∧ 0 ≤ (overSplit [1]).2 ∧
      0 < (overSplit [1]).1 + (overSplit [1]).2) ∧
    tokenize zeroHash overSplit [1] = .error .oob := ⟨by decide, rfl⟩

/-- The tokenize loop completes without error for any splitter that on
every non-empty buffer satisfies the documented contract and stays within
the buffer, for any fuel at least the buffer length. -/
theorem tokenizeGo_ok (h : List Nat → Nat) (s : List Nat → Int × Int)
    (hg : GoodSplit s) :
    ∀ fuel a, a.length ≤ fuel → (tokenizeGo h s fuel a).isOk = true := by
  intro fuel
  induction fuel with
  | zero =>
    intro a hl
    cases a with
    | nil => rfl
    | cons x rest => simp at hl
  | succ fuel ih =>
    intro a hl
    cases a with
    | nil => rfl
    | cons x rest =>
      obtain ⟨h1, h2, h3, h4⟩ := hg (x :: rest) (by simp)
      simp only [tokenizeGo]
      rw [if_neg (by omega)]
      rw [if_neg (by omega)]
      have hlen : ((x :: rest).drop ((s (x :: rest)).1 + (s (x :: rest)).2).toNat).length ≤ fuel := by
        rw [List.length_drop]
        simp only [List.length_cons] at hl ⊢
        omega
      have hrec := ih ((x :: rest).drop ((s (x :: rest)).1 + (s (x :: rest)).2).toNat) hlen
      cases hcall : tokenizeGo h s fuel ((x :: rest).drop ((s (x :: rest)).1 + (s (x :: rest)).2).toNat) with
      | error e => rw [hcall] at hrec; simp [Except.isOk, Except.toBool] at hrec
      | ok r => rfl

/-- Claim C10 (amended): tokenization fails in exactly two ways. If on some
call (i.e. from any reachable loop state with a non-empty buffer) the
splitter returns a negative token length, a negative skip length, or both
zero, the computation stops immediately with the invalid-split error and no
partial result; and for splitters that never violate this contract AND
never return lengths reaching past the end of the remaining buffer,
tokenization completes without error. -/
theorem C10_amended :
    (∀ (h : List Nat → Nat) (s : List Nat → Int × Int) (a : List Nat),
        a ≠ [] → BadRet (s a) →
        tokenize h s a = .error (.invalidSplit (s a).1 (s a).2)) ∧
    (∀ (h : List Nat → Nat) (s : List Nat → Int × Int) (a : List Nat),
        GoodSplit s → (tokenize h s a).isOk = true) := by
  constructor
  · intro h s a ha hbad
    cases a with
    | nil => exact absurd rfl ha
    | cons x rest =>
      have hbad2 : (s (x :: rest)).1 < 0 ∨ (s (x :: rest)).2 < 0 ∨
          (s (x :: rest)).1 + (s (x :: rest)).2 = 0 := hbad
      show tokenizeGo h s (x :: rest).length (x :: rest) = _
      simp only [List.length_cons, tokenizeGo]
      rw [if_pos hbad2]
  · intro h s a hg
    exact tokenizeGo_ok h s hg a.length a le_rfl

/-- The one-token splitter satisfies the strengthened contract. -/
theorem goodSplit_wholeSplit : GoodSplit wholeSplit := by
  intro a ha
  have hpos : 0 < a.length := List.length_pos.mpr ha
  refine ⟨?_, le_rfl, ?_, ?_⟩
  · show (0 : Int) ≤ (a.length : Int)
    omega
  · show (0 : Int) < (a.length : Int) + 0
    omega
  · show (a.length : Int) + 0 ≤ (a.length : Int)
    omega

/-- Witness for both parts of C10_amended: the contract-violating negSplit
stops immediately with the invalid-split error on [3], and the well-behaved
wholeSplit tokenizes [4,5] without error. -/
theorem C10_amended_witness :
    (([3] : List Nat) ≠ []) ∧ BadRet (negSplit [3]) ∧
    tokenize zeroHash negSplit [3] =
      .error (.invalidSplit (negSplit [3]).1 (negSplit [3]).2) ∧
    GoodSplit wholeSplit ∧
    (tokenize zeroHash wholeSplit [4,5]).isOk = true :=
  ⟨by decide, Or.inl (by decide),
    C10_amended.1 zeroHash negSplit [3] (by decide) (Or.inl (by decide)),
    goodSplit_wholeSplit,
    C10_amended.2 zeroHash wholeSplit [4,5] goodSplit_wholeSplit⟩

end DiffM
